import Mathlib

/-
Verification of the canonical binary-automaton enumerator of
`src/app/io.hpp` (`IO::generate_binary_automata`, `IO::EncodedAutomaton` and
its `validate`, and the serialization lambda `serialize_current`).

The C++ transition table `std::vector<std::vector<int>>` with sentinel `-1`
is embedded as `List (List Int)`; the mutable in-place updates of the
recursive lambda `rec` become explicit state passing (the function returns
the table together with the list of accepted complete tables), and the
`std::exit(3)` fatal paths of `generate_binary_automata` and `validate`
become an `Except` result and a `Bool`-valued check respectively.
-/

namespace Synchro

/-- The transition table: rows are states, columns are symbols; `-1` is the
unassigned sentinel, mirroring `std::vector<std::vector<int>> transitions(n, std::vector<int>(k, -1))`. -/
abbrev Table := List (List Int)

/-- Read `transitions[i][j]` (out-of-range reads return the sentinel; the
source never reads out of range). -/
def tget (t : Table) (i j : Nat) : Int := ((t.getD i []).getD j (-1))

/-- Write `transitions[i][j] = v` (out-of-range writes are dropped; the
source never writes out of range). -/
def tset (t : Table) (i j : Nat) (v : Int) : Table := t.set i ((t.getD i []).set j v)

/-- The initial table of `generate_binary_automata`: `n` rows of `k` cells, all `-1`. -/
def mkTable (n k : Nat) : Table := List.replicate n (List.replicate k (-1))

/-- Mirrors the root-state loop `for (uint s = 0; s < k; ++s) transitions[0][s] = 0;`. -/
def setRowZero (t : Table) (k : Nat) : Table :=
  (List.range k).foldl (fun acc s => tset acc 0 s 0) t

mutual

/-- The recursive backtracking search `rec` of `generate_binary_automata`.
Instead of mutating `transitions` and `result` in place it returns the final
table and the list of accepted complete tables (in emission order).  The
source tests `state_idx == n` and `sym_idx == k` with `==`; since the search
only ever reaches those values exactly, the `≤` tests used here coincide
with the source on every reachable call and make termination evident. -/
def rec (n k state_idx sym_idx seen : Nat) (t : Table) : Table × List Table :=
  if n ≤ state_idx then
    (t, if seen = n then [t] else [])
  else if h2 : k ≤ sym_idx then
    rec n k (state_idx + 1) 0 seen t
  else if state_idx = 0 then
    rec n k 1 0 (seen + 1) (setRowZero t k)
  else
    let has_trans_going_down : Bool := (List.range sym_idx).any (fun s =>
      decide (tget t state_idx s ≠ -1 ∧ tget t state_idx s < (state_idx : Int)))
    let max_new_target : Nat :=
      if has_trans_going_down = false ∧ sym_idx = k - 1 then state_idx - 1
      else min seen (n - 1)
    let out := recLoop n k state_idx sym_idx seen (List.range (max_new_target + 1)) t
      (Nat.lt_of_not_le h2)
    (tset out.1 state_idx sym_idx (-1), out.2)
termination_by (n - state_idx, 2 * (k - sym_idx) + 1, 0)

/-- The target loop `for (uint target = 0; target <= max_new_target; ++target)`
of `rec`, over the explicit list of remaining targets.  After the loop the
caller (`rec`) resets the cell to the sentinel. -/
def recLoop (n k state_idx sym_idx seen : Nat) (targets : List Nat) (t : Table)
    (hjk : sym_idx < k) : Table × List Table :=
  match targets with
  | [] => (t, [])
  | target :: rest =>
    let introduced : Nat := if target = seen ∧ seen < n then 1 else 0
    let t1 := tset t state_idx sym_idx (Int.ofNat target)
    let out1 := rec n k state_idx (sym_idx + 1) (seen + introduced) t1
    let out2 := recLoop n k state_idx sym_idx seen rest out1.1 hjk
    (out2.1, out1.2 ++ out2.2)
termination_by (n - state_idx, 2 * (k - sym_idx), targets.length)

end

/-- The row-major cell sequence `transitions[st][sym]` for `st < n`, `sym < k`,
in the iteration order of `serialize_current`. -/
def tokens (n k : Nat) (t : Table) : List Int :=
  (List.range n).flatMap (fun st => (List.range k).map (fun sym => tget t st sym))

/-- Decimal digit characters, as produced by `std::to_string`. -/
def digitChar (d : Nat) : Char :=
  match d with
  | 0 => '0' | 1 => '1' | 2 => '2' | 3 => '3' | 4 => '4'
  | 5 => '5' | 6 => '6' | 7 => '7' | 8 => '8' | _ => '9'

/-- Decimal rendering of a natural number, as `std::to_string` renders
nonnegative values. -/
def natChars (m : Nat) : List Char :=
  if m < 10 then [digitChar m]
  else natChars (m / 10) ++ [digitChar (m % 10)]
termination_by m
decreasing_by exact Nat.div_lt_self (by omega) (by omega)

/-- Decimal rendering of an `int`, as `std::to_string` renders it. -/
def intChars (v : Int) : List Char :=
  if v < 0 then '-' :: natChars (-v).toNat else natChars v.toNat

/-- Joins rendered cells with single separating spaces: mirrors
`if (!s.empty()) s.push_back(' '); s += std::to_string(...)`. -/
def joinSep : List (List Char) → List Char
  | [] => []
  | [x] => x
  | x :: xs => x ++ ' ' :: joinSep xs

/-- The lambda `serialize_current`: the table in state-major order, one
space between consecutive integers, no leading or trailing separator. -/
def serialize_current (n k : Nat) (t : Table) : String :=
  String.mk (joinSep ((tokens n k t).map intChars))

/-- Whitespace tokenization, as `std::stringstream` extraction splits the
encoded string: maximal nonempty runs of non-space characters. -/
def splitAux : List Char → List Char → List (List Char)
  | [], acc => if acc = [] then [] else [acc.reverse]
  | c :: rest, acc =>
    if c = ' ' then
      if acc = [] then splitAux rest [] else acc.reverse :: splitAux rest []
    else splitAux rest (c :: acc)

/-- Tokens of an encoded string. -/
def splitTokens (cs : List Char) : List (List Char) := splitAux cs []

/-- Reading one token with `ss >> cur` into a `uint`: succeeds on a nonempty
all-digit token with its decimal value (the wire format produced by
`serialize_current` consists only of such tokens). -/
def readUInt (tok : List Char) : Option Nat :=
  if tok ≠ [] ∧ tok.all (fun c => c.isDigit) then
    some (tok.foldl (fun a c => a * 10 + (c.toNat - 48)) 0)
  else none

/-- The integer sequence obtained by re-parsing an encoded string
(each unparseable token decoded as 0; records only contain digit tokens). -/
def decodeNats (s : String) : List Nat :=
  (splitTokens s.data).map (fun tok => (readUInt tok).getD 0)

/-- `IO::EncodedAutomaton`: the record pushed for each accepted assignment. -/
structure EncodedAutomaton where
  N : Nat
  K : Nat
  str : String
deriving DecidableEq

/-- The validation loop `for (uint i = 0; i < N * K; ++i)` of
`EncodedAutomaton::validate`: reads `cnt` integers from the token stream,
failing (`std::exit(3)`) if the stream runs out or a value is `≥ N`. -/
def validateLoop (Nv : Nat) : Nat → List (Option Nat) → Bool
  | 0, _ => true
  | _ + 1, [] => false
  | cnt + 1, tok :: rest =>
    match tok with
    | none => false
    | some cur => if Nv ≤ cur then false else validateLoop Nv cnt rest

/-- `EncodedAutomaton::validate`: `true` means the check returns normally,
`false` means the fatal `std::exit(3)` path. -/
def validate (a : EncodedAutomaton) : Bool :=
  validateLoop a.N (a.N * a.K) ((splitTokens a.str.data).map readUInt)

/-- The two fatal-exit reasons of `generate_binary_automata`: the `n <= 0`
configuration check, and a record failing `validate` inside `push_current`. -/
inductive GenError where
  | configError
  | validationError
deriving DecidableEq

/-- `IO::generate_binary_automata`: `k` is fixed to 2, the `n <= 0` check
exits fatally, then the search runs from `rec(0, 0, 1)` on the all-unassigned
table and each accepted table is serialized, validated and pushed. -/
def generate_binary_automata (n : Nat) : Except GenError (List EncodedAutomaton) :=
  let k := 2
  if n = 0 then Except.error GenError.configError
  else
    let run := rec n k 0 0 1 (mkTable n k)
    let result := run.2.map (fun t => ⟨n, k, serialize_current n k t⟩)
    if result.all (fun a => validate a) then Except.ok result
    else Except.error GenError.validationError

/-- The result collection of a successful run (empty when the run exits fatally). -/
def okList (e : Except GenError (List EncodedAutomaton)) : List EncodedAutomaton :=
  match e with
  | Except.ok l => l
  | Except.error _ => []

/-- One step of reachability over a decoded flat transition sequence
(position `state * k + symbol` holds the target): the set grows by every
target of every state already reached. -/
def reachStep (k : Nat) (ts : List Nat) (s : List Nat) : List Nat :=
  (s ++ s.flatMap (fun q => (List.range k).map (fun sym => ts.getD (q * k + sym) 0))).dedup

/-- States reachable from state 0 by following transitions of a decoded
record (`n` expansion rounds saturate any `n`-state table). -/
def reachListN (n k : Nat) (ts : List Nat) : List Nat :=
  (fun s => reachStep k ts s)^[n] [0]

/-- The table has exactly `n` rows of exactly `k` cells. -/
def Shaped (n k : Nat) (t : Table) : Prop :=
  t.length = n ∧ ∀ i < n, (t.getD i []).length = k

/-- Every cell at or after position `(i, j)` in row-major order is still the
unassigned sentinel. -/
def UnassignedFrom (n k : Nat) (t : Table) (i j : Nat) : Prop :=
  ∀ a < n, ∀ b < k, (i < a ∨ (i = a ∧ j ≤ b)) → tget t a b = -1

instance (n k : Nat) (t : Table) : Decidable (Shaped n k t) := by
  unfold Shaped; infer_instance

instance (n k : Nat) (t : Table) (i j : Nat) : Decidable (UnassignedFrom n k t i j) := by
  unfold UnassignedFrom; infer_instance

/-! Basic facts about table reads and writes. -/

theorem length_tset (t : Table) (i j : Nat) (v : Int) : (tset t i j v).length = t.length :=
  List.length_set t i ((t.getD i []).set j v)

theorem list_set_self (l : List Int) (i : Nat) (h : i < l.length) : l.set i l[i] = l := by
  apply List.ext_getElem?
  intro j
  by_cases hj : i = j
  · subst hj
    rw [List.getElem?_set_self h, List.getElem?_eq_getElem h]
  · rw [List.getElem?_set_ne hj]

theorem table_set_self (t : Table) (i : Nat) (h : i < t.length) : t.set i t[i] = t := by
  apply List.ext_getElem?
  intro j
  by_cases hj : i = j
  · subst hj
    rw [List.getElem?_set_self h, List.getElem?_eq_getElem h]
  · rw [List.getElem?_set_ne hj]

theorem tget_tset (t : Table) (i j a b : Nat) (v : Int) :
    tget (tset t i j v) a b =
      if i = a ∧ j = b ∧ i < t.length ∧ j < (t.getD i []).length then v
      else tget t a b := by
  simp only [tget, tset, List.getD_eq_getElem?_getD, List.getElem?_set]
  by_cases hia : i = a
  · subst hia
    by_cases hlen : i < t.length
    · simp only [hlen, if_true, reduceIte, List.getElem?_eq_getElem hlen, Option.getD_some,
        List.getElem?_set]
      by_cases hjb : j = b
      · subst hjb
        split_ifs <;>
          simp_all [List.getElem?_eq_none_iff.mpr]
      · simp [hjb]
    · have h0 : t[i]? = none := List.getElem?_eq_none_iff.mpr (by omega)
      simp [hlen, h0]
  · simp [hia]

theorem tget_tset_eq {t : Table} {i j : Nat} (hi : i < t.length)
    (hj : j < (t.getD i []).length) (v : Int) : tget (tset t i j v) i j = v := by
  rw [tget_tset, if_pos ⟨rfl, rfl, hi, hj⟩]

theorem tget_tset_ne (t : Table) {i j a b : Nat} (h : a ≠ i ∨ b ≠ j) (v : Int) :
    tget (tset t i j v) a b = tget t a b := by
  rw [tget_tset, if_neg (by rintro ⟨h1, h2, -⟩; rcases h with h | h; exacts [h h1.symm, h h2.symm])]

theorem tset_tset (t : Table) (i j : Nat) (v w : Int) :
    tset (tset t i j v) i j w = tset t i j w := by
  unfold tset
  by_cases hlen : i < t.length
  · have h1 : (t.set i ((t.getD i []).set j v)).getD i [] = (t.getD i []).set j v := by
      rw [List.getD_eq_getElem?_getD, List.getElem?_set_self hlen, Option.getD_some]
    rw [h1, List.set_set, List.set_set]
  · have h2 : t.set i ((t.getD i []).set j v) = t :=
      List.set_eq_of_length_le (by omega)
    rw [h2]

theorem tset_tget_self (t : Table) (i j : Nat) : tset t i j (tget t i j) = t := by
  unfold tset
  by_cases hlen : i < t.length
  · have hgetD : t.getD i [] = t[i] := List.getD_eq_getElem t [] hlen
    by_cases hrow : j < (t.getD i []).length
    · have hv : tget t i j = (t.getD i [])[j] := by
        unfold tget
        rw [List.getD_eq_getElem _ _ hrow]
      rw [hv, list_set_self _ _ hrow, hgetD]
      exact table_set_self t i hlen
    · rw [List.set_eq_of_length_le (α := Int) (by omega), hgetD]
      exact table_set_self t i hlen
  · exact List.set_eq_of_length_le (by omega)

theorem tset_sentinel_self {t : Table} {i j : Nat} (h : tget t i j = -1) :
    tset t i j (-1) = t := by
  rw [← h]
  exact tset_tget_self t i j

theorem tget_mkTable (n k a b : Nat) : tget (mkTable n k) a b = -1 := by
  simp only [tget, mkTable, List.getD_eq_getElem?_getD]
  by_cases ha : a < n
  · rw [List.getElem?_replicate_of_lt ha, Option.getD_some]
    by_cases hb : b < k
    · rw [List.getElem?_replicate_of_lt hb, Option.getD_some]
    · rw [List.getElem?_eq_none_iff.mpr (by rw [List.length_replicate]; omega),
        Option.getD_none]
  · have h0 : (List.replicate n (List.replicate k (-1)) : Table)[a]? = none :=
      List.getElem?_eq_none_iff.mpr (by rw [List.length_replicate]; omega)
    rw [h0, Option.getD_none]
    simp

theorem shaped_mkTable (n k : Nat) : Shaped n k (mkTable n k) := by
  constructor
  · exact List.length_replicate n _
  · intro i hi
    unfold mkTable
    rw [List.getD_eq_getElem?_getD, List.getElem?_replicate_of_lt hi, Option.getD_some,
      List.length_replicate]

theorem shaped_tset {n k : Nat} {t : Table} (h : Shaped n k t) (i j : Nat) (v : Int) :
    Shaped n k (tset t i j v) := by
  obtain ⟨hlen, hrow⟩ := h
  refine ⟨by rw [length_tset]; exact hlen, ?_⟩
  intro a ha
  unfold tset
  rw [List.getD_eq_getElem?_getD, List.getElem?_set]
  split_ifs with h1 h2
  · subst h1
    rw [Option.getD_some, List.length_set]
    exact hrow _ ha
  · exfalso; omega
  · rw [← List.getD_eq_getElem?_getD]
    exact hrow a ha

theorem unassigned_mkTable (n k i j : Nat) : UnassignedFrom n k (mkTable n k) i j := by
  intro a _ b _ _
  exact tget_mkTable n k a b

/-! Characterization of the root-row assignment. -/

theorem setRowZero_fold_shaped {n k : Nat} {t : Table} (h : Shaped n k t) (m : Nat) :
    Shaped n k ((List.range m).foldl (fun acc s => tset acc 0 s 0) t) := by
  induction m with
  | zero => simpa using h
  | succ m ih =>
    rw [List.range_succ, List.foldl_append, List.foldl_cons, List.foldl_nil]
    exact shaped_tset ih 0 m 0

theorem shaped_setRowZero {n k : Nat} {t : Table} (h : Shaped n k t) :
    Shaped n k (setRowZero t k) := setRowZero_fold_shaped h k

theorem tget_setRowZero_fold {n k : Nat} {t : Table} (h : Shaped n k t) (hn : 1 ≤ n)
    {m : Nat} (hm : m ≤ k) (a b : Nat) :
    tget ((List.range m).foldl (fun acc s => tset acc 0 s 0) t) a b =
      if a = 0 ∧ b < m then 0 else tget t a b := by
  induction m with
  | zero => simp
  | succ m ih =>
    have hm' : m ≤ k := by omega
    rw [List.range_succ, List.foldl_append, List.foldl_cons, List.foldl_nil]
    have hsh := setRowZero_fold_shaped h m
    rw [tget_tset, hsh.1, hsh.2 0 (by omega), ih hm']
    split_ifs <;> first | rfl | omega

theorem tget_setRowZero {n k : Nat} {t : Table} (h : Shaped n k t) (hn : 1 ≤ n) (a b : Nat) :
    tget (setRowZero t k) a b = if a = 0 ∧ b < k then 0 else tget t a b :=
  tget_setRowZero_fold h hn le_rfl a b

/-! Shape preservation through the search. -/

theorem rec_shaped (n k : Nat) :
    (∀ i j seen t, Shaped n k t →
      Shaped n k (rec n k i j seen t).1 ∧ ∀ r ∈ (rec n k i j seen t).2, Shaped n k r) ∧
    (∀ i j seen targets t hjk, Shaped n k t →
      Shaped n k (recLoop n k i j seen targets t hjk).1 ∧
      ∀ r ∈ (recLoop n k i j seen targets t hjk).2, Shaped n k r) := by
  refine Synchro.rec.mutual_induct n k _ _ ?_ ?_ ?_ ?_ ?_ ?_
  · intro i j seen t hni hsh
    rw [Synchro.rec, if_pos hni]
    refine ⟨hsh, ?_⟩
    intro r hr
    split at hr
    · rw [List.mem_singleton] at hr
      exact hr ▸ hsh
    · simp at hr
  · intro i j seen t hni hkj ih hsh
    rw [Synchro.rec, if_neg hni, dif_pos hkj]
    exact ih hsh
  · intro j seen t hkj hn ih hsh
    rw [Synchro.rec, if_neg hn, dif_neg hkj, if_pos rfl]
    exact ih (shaped_setRowZero hsh)
  · intro i j seen t hni hkj hi0 htgd mnt ih hsh
    rw [Synchro.rec, if_neg hni, dif_neg hkj, if_neg hi0]
    obtain ⟨ih1, ih2⟩ := ih hsh
    exact ⟨shaped_tset ih1 i j (-1), ih2⟩
  · intro i j seen t hjk hsh
    rw [Synchro.recLoop]
    exact ⟨hsh, by simp⟩
  · intro i j seen t hjk target rest introduced t1 out1 ih1 ih1' ih2 hsh
    rw [Synchro.recLoop]
    have h1 := ih1 (shaped_tset hsh i j (Int.ofNat target))
    have h2 := ih2 h1.1
    refine ⟨h2.1, ?_⟩
    intro r hr
    rw [List.mem_append] at hr
    rcases hr with hr | hr
    · exact h1.2 r hr
    · exact h2.2 r hr

/-! Backtracking restores the table: every call with `state_idx ≥ 1` returns
the table exactly as it received it (the cells at or after its own position
being unassigned at entry). -/

theorem unassignedFrom_weaken {n k : Nat} {t : Table} {i j j' : Nat} (hj : j ≤ j')
    (h : UnassignedFrom n k t i j) : UnassignedFrom n k t i j' := by
  intro a ha b hb hc
  exact h a ha b hb (by omega)

theorem unassignedFrom_next_state {n k : Nat} {t : Table} {i j j' : Nat}
    (h : UnassignedFrom n k t i j) : UnassignedFrom n k t (i + 1) j' := by
  intro a ha b hb hc
  exact h a ha b hb (by omega)

theorem unassignedFrom_tset {n k : Nat} {t : Table} {i j : Nat} (v : Int)
    (h : UnassignedFrom n k t i (j + 1)) :
    UnassignedFrom n k (tset t i j v) i (j + 1) := by
  intro a ha b hb hc
  rw [tget_tset_ne t (by omega) v]
  exact h a ha b hb hc

theorem rec_restore (n k : Nat) :
    (∀ i j seen t, 1 ≤ i → Shaped n k t → UnassignedFrom n k t i j →
      (rec n k i j seen t).1 = t) ∧
    (∀ i j seen targets t hjk, 1 ≤ i → i < n → Shaped n k t →
      UnassignedFrom n k t i (j + 1) →
      ∃ v, (recLoop n k i j seen targets t hjk).1 = tset t i j v) := by
  refine Synchro.rec.mutual_induct n k _ _ ?_ ?_ ?_ ?_ ?_ ?_
  · intro i j seen t hni _ _ _
    rw [Synchro.rec, if_pos hni]
  · intro i j seen t hni hkj ih hi hsh hun
    rw [Synchro.rec, if_neg hni, dif_pos hkj]
    exact ih (by omega) hsh (unassignedFrom_next_state hun)
  · intro j seen t hkj hn ih hi hsh hun
    omega
  · intro i j seen t hni hkj hi0 htgd mnt ih hi hsh hun
    obtain ⟨v, hv⟩ := ih hi (by omega) hsh (unassignedFrom_weaken (by omega) hun)
    rw [Synchro.rec, if_neg hni, dif_neg hkj, if_neg hi0]
    show tset (recLoop n k i j seen (List.range (mnt + 1)) t (Nat.lt_of_not_le hkj)).1
      i j (-1) = t
    rw [hv, tset_tset]
    exact tset_sentinel_self (hun i (by omega) j (by omega) (by omega))
  · intro i j seen t hjk hi hin hsh hun
    rw [Synchro.recLoop]
    exact ⟨tget t i j, (tset_tget_self t i j).symm⟩
  · intro i j seen t hjk target rest introduced t1 out1 ih1 ih1' ih2 hi hin hsh hun
    rw [Synchro.recLoop]
    have hsh1 : Shaped n k (tset t i j (Int.ofNat target)) :=
      shaped_tset hsh i j (Int.ofNat target)
    have hun1 : UnassignedFrom n k (tset t i j (Int.ofNat target)) i (j + 1) :=
      unassignedFrom_tset _ hun
    have hrec : out1.1 = t1 := ih1 hi hsh1 (by
      intro a ha b hb hc
      exact hun1 a ha b hb (by omega))
    obtain ⟨v, hv⟩ := ih2 hi hin (hrec ▸ hsh1) (hrec ▸ hun1)
    refine ⟨v, ?_⟩
    show (recLoop n k i j seen rest out1.1 hjk).1 = tset t i j v
    rw [hv, hrec]
    show tset (tset t i j (Int.ofNat target)) i j v = tset t i j v
    exact tset_tset t i j _ v

/-- The first recursive call inside the target loop returns the table it was
given (the just-assigned cell included). -/
theorem recLoop_inner_restore {n k i j seen : Nat} (target : Nat) {t : Table}
    (hi : 1 ≤ i) (hsh : Shaped n k t) (hun : UnassignedFrom n k t i (j + 1)) :
    (rec n k i (j + 1) seen (tset t i j (Int.ofNat target))).1 =
      tset t i j (Int.ofNat target) :=
  (rec_restore n k).1 i (j + 1) seen _ hi (shaped_tset hsh i j _)
    (unassignedFrom_tset _ hun)

/-! Produced records extend the partial assignment current at each call. -/

theorem rec_extends (n k : Nat) :
    (∀ i j seen t, Shaped n k t → UnassignedFrom n k t i j → (i = 0 → j = 0) →
      ∀ r ∈ (rec n k i j seen t).2, ∀ a b, (a < i ∨ (a = i ∧ b < j)) →
        tget r a b = tget t a b) ∧
    (∀ i j seen targets t hjk, 1 ≤ i → i < n → Shaped n k t →
      UnassignedFrom n k t i (j + 1) →
      ∀ r ∈ (recLoop n k i j seen targets t hjk).2,
        (∀ a b, (a < i ∨ (a = i ∧ b < j)) → tget r a b = tget t a b) ∧
        ∃ tg ∈ targets, tget r i j = Int.ofNat tg) := by
  refine Synchro.rec.mutual_induct n k _ _ ?_ ?_ ?_ ?_ ?_ ?_
  · intro i j seen t hni hsh hun h0 r hr a b hab
    rw [Synchro.rec, if_pos hni] at hr
    simp only at hr
    split at hr
    · rw [List.mem_singleton] at hr
      rw [hr]
    · simp at hr
  · intro i j seen t hni hkj ih hsh hun h0 r hr a b hab
    rw [Synchro.rec, if_neg hni, dif_pos hkj] at hr
    exact ih hsh (unassignedFrom_next_state hun) (by omega) r hr a b (by omega)
  · intro j seen t hkj hn ih hsh hun h0 r hr a b hab
    have hj0 : j = 0 := h0 rfl
    omega
  · intro i j seen t hni hkj hi0 htgd mnt ih hsh hun h0
    intro r hr a b hab
    rw [Synchro.rec, if_neg hni, dif_neg hkj, if_neg hi0] at hr
    have hr2 : r ∈ (recLoop n k i j seen (List.range (mnt + 1)) t
        (Nat.lt_of_not_le hkj)).2 := hr
    exact (ih (by omega) (by omega) hsh (unassignedFrom_weaken (by omega) hun)
      r hr2).1 a b hab
  · intro i j seen t hjk hi hin hsh hun r hr
    rw [Synchro.recLoop] at hr
    simp at hr
  · intro i j seen t hjk target rest introduced t1 out1 ih1 ih1' ih2 hi hin hsh hun r hr
    rw [Synchro.recLoop] at hr
    have hr2 : r ∈ out1.2 ++ (recLoop n k i j seen rest out1.1 hjk).2 := hr
    have hsh1 : Shaped n k (tset t i j (Int.ofNat target)) :=
      shaped_tset hsh i j (Int.ofNat target)
    have hun1 : UnassignedFrom n k (tset t i j (Int.ofNat target)) i (j + 1) :=
      unassignedFrom_tset _ hun
    have hrec : out1.1 = tset t i j (Int.ofNat target) :=
      recLoop_inner_restore target hi hsh hun
    rw [List.mem_append] at hr2
    rcases hr2 with hr2 | hr2
    · have hagree := ih1 hsh1 hun1 (by omega) r hr2
      constructor
      · intro a b hab
        rw [hagree a b (by omega), tget_tset_ne t (by omega) _]
      · refine ⟨target, List.mem_cons_self target rest, ?_⟩
        rw [hagree i j (by omega)]
        exact tget_tset_eq (by rw [hsh.1]; omega)
          (by rw [hsh.2 i (by omega)]; omega) _
    · have hshA : Shaped n k out1.1 := by rw [hrec]; exact hsh1
      have hunA : UnassignedFrom n k out1.1 i (j + 1) := by rw [hrec]; exact hun1
      have hres := ih2 hi hin hshA hunA r hr2
      constructor
      · intro a b hab
        rw [hres.1 a b hab, hrec, tget_tset_ne t (by omega) _]
      · obtain ⟨tg, htg, hcell⟩ := hres.2
        exact ⟨tg, List.mem_cons_of_mem target htg, hcell⟩

/-! Every produced record is a completely assigned table with every target
in the valid range `[0, n)`. -/

/-- All cells strictly before position `(i, j)` in row-major order hold a
value in `[0, n)`. -/
def InRangeBefore (n k : Nat) (t : Table) (i j : Nat) : Prop :=
  ∀ a < n, ∀ b < k, (a < i ∨ (a = i ∧ b < j)) → 0 ≤ tget t a b ∧ tget t a b < (n : Int)

theorem rec_range (n k : Nat) :
    (∀ i j seen t, Shaped n k t → UnassignedFrom n k t i j → (i = 0 → j = 0) →
      InRangeBefore n k t i j →
      ∀ r ∈ (rec n k i j seen t).2, ∀ a < n, ∀ b < k,
        0 ≤ tget r a b ∧ tget r a b < (n : Int)) ∧
    (∀ i j seen targets t hjk, 1 ≤ i → i < n → Shaped n k t →
      UnassignedFrom n k t i (j + 1) → InRangeBefore n k t i j →
      (∀ tg ∈ targets, tg < n) →
      ∀ r ∈ (recLoop n k i j seen targets t hjk).2, ∀ a < n, ∀ b < k,
        0 ≤ tget r a b ∧ tget r a b < (n : Int)) := by
  refine Synchro.rec.mutual_induct n k _ _ ?_ ?_ ?_ ?_ ?_ ?_
  · intro i j seen t hni hsh hun h0 hrng r hr a ha b hb
    rw [Synchro.rec, if_pos hni] at hr
    simp only at hr
    split at hr
    · rw [List.mem_singleton] at hr
      subst hr
      exact hrng a ha b hb (by omega)
    · simp at hr
  · intro i j seen t hni hkj ih hsh hun h0 hrng
    rw [Synchro.rec, if_neg hni, dif_pos hkj]
    refine ih hsh (unassignedFrom_next_state hun) (by omega) ?_
    intro a ha b hb hab
    exact hrng a ha b hb (by omega)
  · intro j seen t hkj hn ih hsh hun h0 hrng
    have hj0 : j = 0 := h0 rfl
    rw [Synchro.rec, if_neg hn, dif_neg hkj, if_pos rfl]
    refine ih (shaped_setRowZero hsh) ?_ (by omega) ?_
    · intro a ha b hb hab
      rw [tget_setRowZero hsh (by omega), if_neg (by omega)]
      exact hun a ha b hb (by omega)
    · intro a ha b hb hab
      rw [tget_setRowZero hsh (by omega), if_pos (by omega)]
      constructor <;> [exact le_refl 0; exact_mod_cast by omega]
  · intro i j seen t hni hkj hi0 htgd mnt ih hsh hun h0 hrng
    intro r hr
    rw [Synchro.rec, if_neg hni, dif_neg hkj, if_neg hi0] at hr
    have hr2 : r ∈ (recLoop n k i j seen (List.range (mnt + 1)) t
        (Nat.lt_of_not_le hkj)).2 := hr
    refine ih (by omega) (by omega) hsh (unassignedFrom_weaken (by omega) hun) hrng ?_ r hr2
    intro tg htg
    rw [List.mem_range] at htg
    have hmnt : mnt = if htgd = false ∧ j = k - 1 then i - 1 else min seen (n - 1) := rfl
    rw [hmnt] at htg
    split_ifs at htg <;> omega
  · intro i j seen t hjk hi hin hsh hun hrng htgts r hr
    rw [Synchro.recLoop] at hr
    simp at hr
  · intro i j seen t hjk target rest introduced t1 out1 ih1 ih1' ih2 hi hin hsh hun hrng htgts
    intro r hr
    rw [Synchro.recLoop] at hr
    have hr2 : r ∈ out1.2 ++ (recLoop n k i j seen rest out1.1 hjk).2 := hr
    have hti : i < t.length := by rw [hsh.1]; omega
    have htj : j < (t.getD i []).length := by rw [hsh.2 i (by omega)]; omega
    have hsh1 : Shaped n k (tset t i j (Int.ofNat target)) :=
      shaped_tset hsh i j (Int.ofNat target)
    have hun1 : UnassignedFrom n k (tset t i j (Int.ofNat target)) i (j + 1) :=
      unassignedFrom_tset _ hun
    have hrec : out1.1 = tset t i j (Int.ofNat target) :=
      recLoop_inner_restore target hi hsh hun
    have htlt : target < n := htgts target (List.mem_cons_self target rest)
    have hrng1 : InRangeBefore n k (tset t i j (Int.ofNat target)) i (j + 1) := by
      intro a ha b hb hab
      by_cases hcell : a = i ∧ b = j
      · obtain ⟨ha1, hb1⟩ := hcell
        subst ha1; subst hb1
        rw [tget_tset_eq hti htj]
        constructor
        · exact Int.ofNat_nonneg target
        · rw [Int.ofNat_eq_natCast]
          exact_mod_cast htlt
      · rw [tget_tset_ne t (by omega) _]
        exact hrng a ha b hb (by omega)
    rw [List.mem_append] at hr2
    rcases hr2 with hr2 | hr2
    · exact ih1 hsh1 hun1 (by omega) hrng1 r hr2
    · have hshA : Shaped n k out1.1 := by rw [hrec]; exact hsh1
      have hunA : UnassignedFrom n k out1.1 i (j + 1) := by rw [hrec]; exact hun1
      have hrngA : InRangeBefore n k out1.1 i j := by
        intro a ha b hb hab
        rw [hrec, tget_tset_ne t (by omega) _]
        exact hrng a ha b hb hab
      exact ih2 hi hin hshA hunA hrngA
        (fun tg htg => htgts tg (List.mem_cons_of_mem target htg)) r hr2

/-! Every non-root state of a produced record has a back-edge: some symbol
targets a strictly smaller state. -/

/-- State `a` has an assigned transition to a strictly smaller state. -/
def downEdge (k : Nat) (t : Table) (a : Nat) : Prop :=
  ∃ s < k, tget t a s ≠ -1 ∧ tget t a s < (a : Int)

theorem rec_down (n k : Nat) :
    (∀ i j seen t, 1 ≤ k → Shaped n k t → UnassignedFrom n k t i j → (i = 0 → j = 0) →
      (∀ a, 1 ≤ a → a < n → (a < i ∨ (a = i ∧ k ≤ j)) → downEdge k t a) →
      ∀ r ∈ (rec n k i j seen t).2, ∀ a, 1 ≤ a → a < n → downEdge k r a) ∧
    (∀ i j seen targets t hjk, 1 ≤ i → i < n → Shaped n k t →
      UnassignedFrom n k t i (j + 1) →
      (∀ a, 1 ≤ a → a < n → a < i → downEdge k t a) →
      (∀ tg ∈ targets,
        ((∀ s, s < j → ¬(tget t i s ≠ -1 ∧ tget t i s < (i : Int))) ∧ j = k - 1) → tg < i) →
      ∀ r ∈ (recLoop n k i j seen targets t hjk).2, ∀ a, 1 ≤ a → a < n → downEdge k r a) := by
  refine Synchro.rec.mutual_induct n k _ _ ?_ ?_ ?_ ?_ ?_ ?_
  · intro i j seen t hni hk hsh hun h0 hd r hr a ha han
    rw [Synchro.rec, if_pos hni] at hr
    simp only at hr
    split at hr
    · rw [List.mem_singleton] at hr
      subst hr
      exact hd a ha han (by omega)
    · simp at hr
  · intro i j seen t hni hkj ih hk hsh hun h0 hd
    rw [Synchro.rec, if_neg hni, dif_pos hkj]
    refine ih hk hsh (unassignedFrom_next_state hun) (by omega) ?_
    intro a ha han hai
    exact hd a ha han (by omega)
  · intro j seen t hkj hn ih hk hsh hun h0 hd
    have hj0 : j = 0 := h0 rfl
    rw [Synchro.rec, if_neg hn, dif_neg hkj, if_pos rfl]
    refine ih hk (shaped_setRowZero hsh) ?_ (by omega) ?_
    · intro a ha b hb hab
      rw [tget_setRowZero hsh (by omega), if_neg (by omega)]
      exact hun a ha b hb (by omega)
    · intro a ha han hai
      omega
  · intro i j seen t hni hkj hi0 htgd mnt ih hk hsh hun h0 hd
    intro r hr
    rw [Synchro.rec, if_neg hni, dif_neg hkj, if_neg hi0] at hr
    have hr2 : r ∈ (recLoop n k i j seen (List.range (mnt + 1)) t
        (Nat.lt_of_not_le hkj)).2 := hr
    refine ih (by omega) (by omega) hsh (unassignedFrom_weaken (by omega) hun)
      (fun a ha han hai => hd a ha han (by omega)) ?_ r hr2
    intro tg htg ⟨hnd, hjk1⟩
    rw [List.mem_range] at htg
    have hfalse : htgd = false := by
      have : htgd = (List.range j).any (fun s =>
          decide (tget t i s ≠ -1 ∧ tget t i s < (i : Int))) := rfl
      rw [this, List.any_eq_false]
      intro s hs
      rw [List.mem_range] at hs
      simp only [decide_eq_true_eq]
      exact hnd s hs
    have hmnt : mnt = if htgd = false ∧ j = k - 1 then i - 1 else min seen (n - 1) := rfl
    rw [hmnt, if_pos ⟨hfalse, hjk1⟩] at htg
    omega
  · intro i j seen t hjk hi hin hsh hun hd htgts r hr
    rw [Synchro.recLoop] at hr
    simp at hr
  · intro i j seen t hjk target rest introduced t1 out1 ih1 ih1' ih2 hi hin hsh hun hd htgts
    intro r hr
    rw [Synchro.recLoop] at hr
    have hr2 : r ∈ out1.2 ++ (recLoop n k i j seen rest out1.1 hjk).2 := hr
    have hti : i < t.length := by rw [hsh.1]; omega
    have htj : j < (t.getD i []).length := by rw [hsh.2 i (by omega)]; omega
    have hsh1 : Shaped n k (tset t i j (Int.ofNat target)) :=
      shaped_tset hsh i j (Int.ofNat target)
    have hun1 : UnassignedFrom n k (tset t i j (Int.ofNat target)) i (j + 1) :=
      unassignedFrom_tset _ hun
    have hrec : out1.1 = tset t i j (Int.ofNat target) :=
      recLoop_inner_restore target hi hsh hun
    have hdt1 : ∀ a, 1 ≤ a → a < n → a < i → downEdge k (tset t i j (Int.ofNat target)) a := by
      intro a ha han hai
      obtain ⟨s, hs, hne, hlt⟩ := hd a ha han hai
      exact ⟨s, hs, by rw [tget_tset_ne t (by omega) _]; exact ⟨hne, hlt⟩⟩
    rw [List.mem_append] at hr2
    rcases hr2 with hr2 | hr2
    · refine ih1 (by omega) hsh1 hun1 (by omega) ?_ r hr2
      intro a ha han hcase
      rcases hcase with hcase | ⟨hai, hkj1⟩
      · exact hdt1 a ha han hcase
      · subst hai
        have hjeq : j = k - 1 := by omega
        by_cases hnd : ∀ s, s < j → ¬(tget t a s ≠ -1 ∧ tget t a s < (a : Int))
        · have htlt : target < a :=
            htgts target (List.mem_cons_self target rest) ⟨hnd, hjeq⟩
          refine ⟨j, by omega, ?_⟩
          rw [tget_tset_eq hti htj]
          constructor
          · intro hcon
            have : (0 : Int) ≤ Int.ofNat target := Int.ofNat_nonneg target
            omega
          · rw [Int.ofNat_eq_natCast]
            exact_mod_cast htlt
        · push_neg at hnd
          obtain ⟨s, hs, hcell⟩ := hnd
          refine ⟨s, by omega, ?_⟩
          rw [tget_tset_ne t (by omega) _]
          tauto
    · have hshA : Shaped n k out1.1 := by rw [hrec]; exact hsh1
      have hunA : UnassignedFrom n k out1.1 i (j + 1) := by rw [hrec]; exact hun1
      refine ih2 hi hin hshA hunA ?_ ?_ r hr2
      · intro a ha han hai
        rw [hrec]
        exact hdt1 a ha han hai
      · intro tg htg ⟨hnd, hjk1⟩
        refine htgts tg (List.mem_cons_of_mem target htg) ⟨?_, hjk1⟩
        intro s hs
        have := hnd s hs
        rw [hrec, tget_tset_ne t (by omega) _] at this
        exact this

/-! Every label counted by `seen` (beyond the doubly-counted root) appears as
a target somewhere strictly before the current cell. -/

/-- Labels `2 .. seen-1` each appear at some cell strictly before `(i, j)`. -/
def LabelsBefore (n k : Nat) (t : Table) (i j seen : Nat) : Prop :=
  ∀ v : Nat, 2 ≤ v → v < seen →
    ∃ a, a < n ∧ ∃ b, b < k ∧ (a < i ∨ (a = i ∧ b < j)) ∧ tget t a b = (v : Int)

theorem rec_labels (n k : Nat) :
    (∀ i j seen t, Shaped n k t → UnassignedFrom n k t i j → (i = 0 → j = 0) →
      (i = 0 → seen = 1) → LabelsBefore n k t i j seen →
      ∀ r ∈ (rec n k i j seen t).2, ∀ v : Nat, 2 ≤ v → v < n →
        ∃ a, a < n ∧ ∃ b, b < k ∧ tget r a b = (v : Int)) ∧
    (∀ i j seen targets t hjk, 1 ≤ i → i < n → Shaped n k t →
      UnassignedFrom n k t i (j + 1) → LabelsBefore n k t i j seen →
      ∀ r ∈ (recLoop n k i j seen targets t hjk).2, ∀ v : Nat, 2 ≤ v → v < n →
        ∃ a, a < n ∧ ∃ b, b < k ∧ tget r a b = (v : Int)) := by
  refine Synchro.rec.mutual_induct n k _ _ ?_ ?_ ?_ ?_ ?_ ?_
  · intro i j seen t hni hsh hun h0 hroot hlab r hr v hv2 hvn
    rw [Synchro.rec, if_pos hni] at hr
    simp only at hr
    split at hr
    case isTrue hseen =>
      rw [List.mem_singleton] at hr
      subst hr
      obtain ⟨a, ha, b, hb, _, hv⟩ := hlab v hv2 (by omega)
      exact ⟨a, ha, b, hb, hv⟩
    case isFalse => simp at hr
  · intro i j seen t hni hkj ih hsh hun h0 hroot hlab
    rw [Synchro.rec, if_neg hni, dif_pos hkj]
    refine ih hsh (unassignedFrom_next_state hun) (by omega) (by omega) ?_
    intro v hv2 hvs
    obtain ⟨a, ha, b, hb, hpos, hv⟩ := hlab v hv2 hvs
    exact ⟨a, ha, b, hb, by omega, hv⟩
  · intro j seen t hkj hn ih hsh hun h0 hroot hlab
    have hj0 : j = 0 := h0 rfl
    have hs1 : seen = 1 := hroot rfl
    rw [Synchro.rec, if_neg hn, dif_neg hkj, if_pos rfl]
    refine ih (shaped_setRowZero hsh) ?_ (by omega) (by omega) ?_
    · intro a ha b hb hab
      rw [tget_setRowZero hsh (by omega), if_neg (by omega)]
      exact hun a ha b hb (by omega)
    · intro v hv2 hvs
      omega
  · intro i j seen t hni hkj hi0 htgd mnt ih hsh hun h0 hroot hlab
    intro r hr
    rw [Synchro.rec, if_neg hni, dif_neg hkj, if_neg hi0] at hr
    have hr2 : r ∈ (recLoop n k i j seen (List.range (mnt + 1)) t
        (Nat.lt_of_not_le hkj)).2 := hr
    exact ih (by omega) (by omega) hsh (unassignedFrom_weaken (by omega) hun) hlab r hr2
  · intro i j seen t hjk hi hin hsh hun hlab r hr
    rw [Synchro.recLoop] at hr
    simp at hr
  · intro i j seen t hjk target rest introduced t1 out1 ih1 ih1' ih2 hi hin hsh hun hlab
    intro r hr
    rw [Synchro.recLoop] at hr
    have hr2 : r ∈ out1.2 ++ (recLoop n k i j seen rest out1.1 hjk).2 := hr
    have hti : i < t.length := by rw [hsh.1]; omega
    have htj : j < (t.getD i []).length := by rw [hsh.2 i (by omega)]; omega
    have hsh1 : Shaped n k (tset t i j (Int.ofNat target)) :=
      shaped_tset hsh i j (Int.ofNat target)
    have hun1 : UnassignedFrom n k (tset t i j (Int.ofNat target)) i (j + 1) :=
      unassignedFrom_tset _ hun
    have hrec : out1.1 = tset t i j (Int.ofNat target) :=
      recLoop_inner_restore target hi hsh hun
    have htransfer : ∀ v : Nat, 2 ≤ v → v < seen →
        ∃ a, a < n ∧ ∃ b, b < k ∧ (a < i ∨ (a = i ∧ b < j)) ∧
          tget (tset t i j (Int.ofNat target)) a b = (v : Int) := by
      intro v hv2 hvs
      obtain ⟨a, ha, b, hb, hpos, hv⟩ := hlab v hv2 hvs
      refine ⟨a, ha, b, hb, hpos, ?_⟩
      rw [tget_tset_ne t (by omega) _]
      exact hv
    rw [List.mem_append] at hr2
    rcases hr2 with hr2 | hr2
    · have hintro : introduced = if target = seen ∧ seen < n then 1 else 0 := rfl
      refine ih1 hsh1 hun1 (by omega) (by omega) ?_ r hr2
      intro v hv2 hvs
      by_cases hc : target = seen ∧ seen < n
      · rw [hintro, if_pos hc] at hvs
        by_cases hveq : v = seen
        · refine ⟨i, by omega, j, by omega, by omega, ?_⟩
          rw [tget_tset_eq hti htj, Int.ofNat_eq_natCast, hc.1, hveq]
        · obtain ⟨a, ha, b, hb, hpos, hv⟩ := htransfer v hv2 (by omega)
          exact ⟨a, ha, b, hb, by omega, hv⟩
      · rw [hintro, if_neg hc] at hvs
        obtain ⟨a, ha, b, hb, hpos, hv⟩ := htransfer v hv2 (by omega)
        exact ⟨a, ha, b, hb, by omega, hv⟩
    · have hshA : Shaped n k out1.1 := by rw [hrec]; exact hsh1
      have hunA : UnassignedFrom n k out1.1 i (j + 1) := by rw [hrec]; exact hun1
      refine ih2 hi hin hshA hunA ?_ r hr2
      intro v hv2 hvs
      rw [hrec]
      exact htransfer v hv2 hvs

/-! No complete assignment is ever emitted twice: any two produced records
differ at some in-range cell. -/

/-- Two tables differ at some cell within the `n × k` shape. -/
def TokDiff (n k : Nat) (r r' : Table) : Prop :=
  ∃ a, a < n ∧ ∃ b, b < k ∧ tget r a b ≠ tget r' a b

theorem rec_pairwise (n k : Nat) :
    (∀ i j seen t, Shaped n k t → UnassignedFrom n k t i j → (i = 0 → j = 0) →
      List.Pairwise (TokDiff n k) (rec n k i j seen t).2) ∧
    (∀ i j seen targets t hjk, 1 ≤ i → i < n → Shaped n k t →
      UnassignedFrom n k t i (j + 1) → targets.Nodup →
      List.Pairwise (TokDiff n k) (recLoop n k i j seen targets t hjk).2) := by
  refine Synchro.rec.mutual_induct n k _ _ ?_ ?_ ?_ ?_ ?_ ?_
  · intro i j seen t hni hsh hun h0
    rw [Synchro.rec, if_pos hni]
    simp only
    split
    · exact List.pairwise_singleton _ t
    · exact List.Pairwise.nil
  · intro i j seen t hni hkj ih hsh hun h0
    rw [Synchro.rec, if_neg hni, dif_pos hkj]
    exact ih hsh (unassignedFrom_next_state hun) (by omega)
  · intro j seen t hkj hn ih hsh hun h0
    have hj0 : j = 0 := h0 rfl
    rw [Synchro.rec, if_neg hn, dif_neg hkj, if_pos rfl]
    refine ih (shaped_setRowZero hsh) ?_ (by omega)
    intro a ha b hb hab
    rw [tget_setRowZero hsh (by omega), if_neg (by omega)]
    exact hun a ha b hb (by omega)
  · intro i j seen t hni hkj hi0 htgd mnt ih hsh hun h0
    rw [Synchro.rec, if_neg hni, dif_neg hkj, if_neg hi0]
    show List.Pairwise (TokDiff n k)
      (recLoop n k i j seen (List.range (mnt + 1)) t (Nat.lt_of_not_le hkj)).2
    exact ih (by omega) (by omega) hsh (unassignedFrom_weaken (by omega) hun)
      (List.nodup_range _)
  · intro i j seen t hjk hi hin hsh hun hnd
    rw [Synchro.recLoop]
    exact List.Pairwise.nil
  · intro i j seen t hjk target rest introduced t1 out1 ih1 ih1' ih2 hi hin hsh hun hnd
    rw [Synchro.recLoop]
    show List.Pairwise (TokDiff n k)
      (out1.2 ++ (recLoop n k i j seen rest out1.1 hjk).2)
    have hti : i < t.length := by rw [hsh.1]; omega
    have htj : j < (t.getD i []).length := by rw [hsh.2 i (by omega)]; omega
    have hsh1 : Shaped n k (tset t i j (Int.ofNat target)) :=
      shaped_tset hsh i j (Int.ofNat target)
    have hun1 : UnassignedFrom n k (tset t i j (Int.ofNat target)) i (j + 1) :=
      unassignedFrom_tset _ hun
    have hrec : out1.1 = tset t i j (Int.ofNat target) :=
      recLoop_inner_restore target hi hsh hun
    have hshA : Shaped n k out1.1 := by rw [hrec]; exact hsh1
    have hunA : UnassignedFrom n k out1.1 i (j + 1) := by rw [hrec]; exact hun1
    rw [List.pairwise_append]
    refine ⟨ih1 hsh1 hun1 (by omega), ih2 hi hin hshA hunA (List.Nodup.of_cons hnd), ?_⟩
    intro r hr r' hr2
    have hcell : tget r i j = Int.ofNat target := by
      have hagree := (rec_extends n k).1 i (j + 1) (seen + introduced) t1
        hsh1 hun1 (by omega) r hr i j (by omega)
      rw [hagree]
      exact tget_tset_eq hti htj _
    have hcell2 := ((rec_extends n k).2 i j seen rest out1.1 hjk
      hi hin hshA hunA r' hr2).2
    obtain ⟨tg, htg, hcell2⟩ := hcell2
    refine ⟨i, hin, j, hjk, ?_⟩
    rw [hcell, hcell2]
    have htgne : tg ≠ target := by
      intro hcon
      subst hcon
      exact (List.nodup_cons.mp hnd).1 htg
    simp only [Int.ofNat_eq_natCast, ne_eq, Nat.cast_inj]
    omega

/-! The row-major token sequence. -/

theorem tokens_length (n k : Nat) (t : Table) : (tokens n k t).length = n * k := by
  induction n with
  | zero => simp [tokens]
  | succ n ih =>
    unfold tokens
    rw [List.range_succ, List.flatMap_append]
    unfold tokens at ih
    simp only [List.flatMap_cons, List.flatMap_nil, List.length_append, ih,
      List.append_nil, List.length_map, List.length_range]
    rw [Nat.succ_mul]

theorem tokens_getElem? {n k : Nat} (t : Table) {i j : Nat} (hi : i < n) (hj : j < k) :
    (tokens n k t)[i * k + j]? = some (tget t i j) := by
  induction n with
  | zero => omega
  | succ n ih =>
    unfold tokens
    rw [List.range_succ, List.flatMap_append]
    by_cases hin : i < n
    · rw [List.getElem?_append_left
        (by rw [show ((List.range n).flatMap fun st => (List.range k).map fun sym =>
              tget t st sym) = tokens n k t from rfl, tokens_length]
            calc i * k + j < i * k + k := by omega
              _ = (i + 1) * k := by rw [Nat.succ_mul]
              _ ≤ n * k := Nat.mul_le_mul_right k (by omega))]
      exact ih hin
    · have hieq : i = n := by omega
      subst hieq
      rw [List.getElem?_append_right
        (by rw [show ((List.range i).flatMap fun st => (List.range k).map fun sym =>
              tget t st sym) = tokens i k t from rfl, tokens_length]
            omega)]
      rw [show ((List.range i).flatMap fun st => (List.range k).map fun sym =>
            tget t st sym) = tokens i k t from rfl, tokens_length]
      simp only [List.flatMap_cons, List.flatMap_nil, List.append_nil,
        Nat.add_sub_cancel_left]
      rw [List.getElem?_map, List.getElem?_range hj]
      rfl

theorem tokens_take {n k : Nat} (t : Table) (hn : 1 ≤ n) :
    (tokens n k t).take k = (List.range k).map (fun sym => tget t 0 sym) := by
  obtain ⟨m, rfl⟩ : ∃ m, n = m + 1 := ⟨n - 1, by omega⟩
  unfold tokens
  rw [List.range_succ_eq_map, List.flatMap_cons]
  rw [List.take_append_of_le_length (by simp)]
  simp

theorem tokens_mem {n k : Nat} {t : Table} {x : Int} (hx : x ∈ tokens n k t) :
    ∃ a, a < n ∧ ∃ b, b < k ∧ x = tget t a b := by
  unfold tokens at hx
  rw [List.mem_flatMap] at hx
  obtain ⟨a, ha, hx⟩ := hx
  rw [List.mem_range] at ha
  rw [List.mem_map] at hx
  obtain ⟨b, hb, hx⟩ := hx
  rw [List.mem_range] at hb
  exact ⟨a, ha, b, hb, hx.symm⟩

/-! Decimal rendering and its parsing inverse. -/

theorem digitChar_isDigit {d : Nat} (h : d < 10) : (digitChar d).isDigit = true := by
  interval_cases d <;> decide

theorem digitChar_toNat {d : Nat} (h : d < 10) : (digitChar d).toNat = 48 + d := by
  interval_cases d <;> decide

theorem isDigit_ne_space {c : Char} (h : c.isDigit = true) : c ≠ ' ' := by
  intro hc
  subst hc
  exact absurd h (by decide)

theorem natChars_ne_nil (m : Nat) : natChars m ≠ [] := by
  rw [natChars]
  split
  · simp
  · simp

theorem natChars_all_digit (m : Nat) : ∀ c ∈ natChars m, c.isDigit = true := by
  induction m using Synchro.natChars.induct with
  | case1 m h =>
    rw [natChars, if_pos h]
    intro c hc
    rw [List.mem_singleton] at hc
    subst hc
    exact digitChar_isDigit h
  | case2 m h ih =>
    rw [natChars, if_neg h]
    intro c hc
    rw [List.mem_append] at hc
    rcases hc with hc | hc
    · exact ih c hc
    · rw [List.mem_singleton] at hc
      subst hc
      exact digitChar_isDigit (by omega)

theorem natChars_foldl (m : Nat) :
    (natChars m).foldl (fun a c => a * 10 + (c.toNat - 48)) 0 = m := by
  induction m using Synchro.natChars.induct with
  | case1 m h =>
    rw [natChars, if_pos h]
    simp only [List.foldl_cons, List.foldl_nil]
    rw [digitChar_toNat h]
    omega
  | case2 m h ih =>
    rw [natChars, if_neg h]
    rw [List.foldl_append]
    simp only [List.foldl_cons, List.foldl_nil, ih]
    rw [digitChar_toNat (by omega)]
    omega

theorem readUInt_natChars (m : Nat) : readUInt (natChars m) = some m := by
  unfold readUInt
  rw [if_pos ⟨natChars_ne_nil m, List.all_eq_true.mpr (natChars_all_digit m)⟩,
    natChars_foldl]

theorem intChars_nonneg {v : Int} (h : 0 ≤ v) : intChars v = natChars v.toNat := by
  unfold intChars
  rw [if_neg (by omega)]

/-! Splitting a joined token list recovers the tokens. -/

theorem splitAux_through_token (tok : List Char) (h : ∀ c ∈ tok, c ≠ ' ') :
    ∀ (rest acc : List Char),
      splitAux (tok ++ rest) acc = splitAux rest (tok.reverse ++ acc) := by
  induction tok with
  | nil => intro rest acc; simp
  | cons c tok ih =>
    intro rest acc
    have hc : c ≠ ' ' := h c (List.mem_cons_self c tok)
    rw [List.cons_append, splitAux, if_neg hc,
      ih (fun x hx => h x (List.mem_cons_of_mem c hx)) rest (c :: acc)]
    simp

theorem splitAux_joinSep (toks : List (List Char))
    (h : ∀ tok ∈ toks, tok ≠ [] ∧ ∀ c ∈ tok, c ≠ ' ') :
    splitAux (joinSep toks) [] = toks := by
  induction toks with
  | nil => rfl
  | cons x xs ih =>
    obtain ⟨hx0, hxs⟩ := h x (List.mem_cons_self x xs)
    cases xs with
    | nil =>
      show splitAux (joinSep [x]) [] = [x]
      rw [joinSep, ← List.append_nil x, splitAux_through_token x hxs [] []]
      rw [splitAux, if_neg (by simpa using hx0)]
      simp
    | cons y ys =>
      show splitAux (joinSep (x :: y :: ys)) [] = x :: y :: ys
      rw [show joinSep (x :: y :: ys) = x ++ ' ' :: joinSep (y :: ys) from rfl,
        splitAux_through_token x hxs _ [], splitAux,
        if_pos rfl, if_neg (by simpa using hx0)]
      rw [List.append_nil, List.reverse_reverse]
      rw [ih (fun tok htok => h tok (List.mem_cons_of_mem x htok))]

theorem splitTokens_joinSep (toks : List (List Char))
    (h : ∀ tok ∈ toks, tok ≠ [] ∧ ∀ c ∈ tok, c ≠ ' ') :
    splitTokens (joinSep toks) = toks :=
  splitAux_joinSep toks h

/-! Re-parsing a serialized table recovers its token sequence. -/

theorem splitTokens_serialize {n k : Nat} (t : Table)
    (hpos : ∀ x ∈ tokens n k t, 0 ≤ x) :
    (splitTokens (serialize_current n k t).data).map readUInt =
      (tokens n k t).map (fun x => some x.toNat) := by
  unfold serialize_current
  have hdata : (String.mk (joinSep ((tokens n k t).map intChars))).data =
      joinSep ((tokens n k t).map intChars) := rfl
  rw [hdata, splitTokens_joinSep]
  · rw [List.map_map]
    apply List.map_congr_left
    intro x hx
    simp only [Function.comp_apply]
    rw [intChars_nonneg (hpos x hx), readUInt_natChars]
  · intro tok htok
    rw [List.mem_map] at htok
    obtain ⟨x, hx, rfl⟩ := htok
    rw [intChars_nonneg (hpos x hx)]
    exact ⟨natChars_ne_nil _, fun c hc => isDigit_ne_space (natChars_all_digit _ c hc)⟩

theorem decodeNats_serialize {n k : Nat} (t : Table)
    (hpos : ∀ x ∈ tokens n k t, 0 ≤ x) :
    decodeNats (serialize_current n k t) = (tokens n k t).map Int.toNat := by
  unfold decodeNats
  rw [show (fun tok => (readUInt tok).getD 0) =
      (fun o : Option Nat => o.getD 0) ∘ readUInt from rfl,
    ← List.map_map, splitTokens_serialize t hpos, List.map_map]
  rfl

/-! The validation loop accepts exactly when it can read its quota of
in-range integers. -/

theorem validateLoop_map_some (N : Nat) :
    ∀ (cnt : Nat) (vs : List Nat),
      validateLoop N cnt (vs.map some) = true ↔
        (cnt ≤ vs.length ∧ ∀ p < cnt, vs.getD p 0 < N) := by
  intro cnt
  induction cnt with
  | zero =>
    intro vs
    simp [validateLoop]
  | succ cnt ih =>
    intro vs
    cases vs with
    | nil =>
      simp [validateLoop]
    | cons v vs =>
      rw [List.map_cons]
      show (if N ≤ v then false else validateLoop N cnt (vs.map some)) = true ↔ _
      by_cases hv : N ≤ v
      · rw [if_pos hv]
        constructor
        · intro hc
          exact absurd hc (by simp)
        · rintro ⟨h1, h2⟩
          have := h2 0 (by omega)
          rw [List.getD_cons_zero] at this
          omega
      · rw [if_neg hv, ih]
        constructor
        · rintro ⟨h1, h2⟩
          refine ⟨by simp; omega, ?_⟩
          intro p hp
          cases p with
          | zero => rw [List.getD_cons_zero]; omega
          | succ p => rw [List.getD_cons_succ]; exact h2 p (by omega)
        · rintro ⟨h1, h2⟩
          refine ⟨by simp at h1; omega, ?_⟩
          intro p hp
          have := h2 (p + 1) (by omega)
          rw [List.getD_cons_succ] at this
          exact this

/-! Top-level consequences for the search started by `generate_binary_automata`:
`rec(0, 0, 1)` on the all-unassigned `n × 2` table. -/

theorem results_shaped {n : Nat} {t : Table}
    (ht : t ∈ (rec n 2 0 0 1 (mkTable n 2)).2) : Shaped n 2 t :=
  ((rec_shaped n 2).1 0 0 1 _ (shaped_mkTable n 2)).2 t ht

theorem results_range {n : Nat} {t : Table}
    (ht : t ∈ (rec n 2 0 0 1 (mkTable n 2)).2) :
    ∀ a < n, ∀ b < 2, 0 ≤ tget t a b ∧ tget t a b < (n : Int) :=
  (rec_range n 2).1 0 0 1 _ (shaped_mkTable n 2) (unassigned_mkTable n 2 0 0)
    (fun _ => rfl)
    (by intro a ha b hb hab; exfalso; rcases hab with h | ⟨h1, h2⟩ <;> omega)
    t ht

theorem results_tokens_nonneg {n : Nat} {t : Table}
    (ht : t ∈ (rec n 2 0 0 1 (mkTable n 2)).2) :
    ∀ x ∈ tokens n 2 t, 0 ≤ x := by
  intro x hx
  obtain ⟨a, ha, b, hb, rfl⟩ := tokens_mem hx
  exact (results_range ht a ha b hb).1

theorem results_down {n : Nat} {t : Table}
    (ht : t ∈ (rec n 2 0 0 1 (mkTable n 2)).2) :
    ∀ a, 1 ≤ a → a < n → downEdge 2 t a :=
  (rec_down n 2).1 0 0 1 _ (by omega) (shaped_mkTable n 2) (unassigned_mkTable n 2 0 0)
    (fun _ => rfl)
    (by intro a h1 h2 hc; exfalso; rcases hc with h | ⟨h3, h4⟩ <;> omega)
    t ht

theorem results_labels {n : Nat} {t : Table}
    (ht : t ∈ (rec n 2 0 0 1 (mkTable n 2)).2) :
    ∀ v : Nat, 2 ≤ v → v < n → ∃ a, a < n ∧ ∃ b, b < 2 ∧ tget t a b = (v : Int) :=
  (rec_labels n 2).1 0 0 1 _ (shaped_mkTable n 2) (unassigned_mkTable n 2 0 0)
    (fun _ => rfl) (fun _ => rfl)
    (by intro v h2 h1; exact absurd h1 (by omega))
    t ht

theorem results_pairwise (n : Nat) :
    List.Pairwise (TokDiff n 2) (rec n 2 0 0 1 (mkTable n 2)).2 :=
  (rec_pairwise n 2).1 0 0 1 _ (shaped_mkTable n 2) (unassigned_mkTable n 2 0 0)
    (fun _ => rfl)

theorem rec_top_step {n : Nat} (hn : 1 ≤ n) :
    rec n 2 0 0 1 (mkTable n 2) = rec n 2 1 0 2 (setRowZero (mkTable n 2) 2) := by
  rw [Synchro.rec]
  rw [if_neg (by omega), dif_neg (by omega), if_pos rfl]

theorem unassigned_after_root (n : Nat) :
    UnassignedFrom n 2 (setRowZero (mkTable n 2) 2) 1 0 := by
  intro a ha b hb hc
  rw [tget_setRowZero (shaped_mkTable n 2) (by omega), if_neg (by omega)]
  exact tget_mkTable n 2 a b

theorem results_row0 {n : Nat} (hn : 1 ≤ n) {t : Table}
    (ht : t ∈ (rec n 2 0 0 1 (mkTable n 2)).2) :
    ∀ b < 2, tget t 0 b = 0 := by
  intro b hb
  rw [rec_top_step hn] at ht
  have hagree := (rec_extends n 2).1 1 0 2 (setRowZero (mkTable n 2) 2)
    (shaped_setRowZero (shaped_mkTable n 2)) (unassigned_after_root n) (by omega)
    t ht 0 b (by omega)
  rw [hagree, tget_setRowZero (shaped_mkTable n 2) hn, if_pos ⟨rfl, hb⟩]

/-! The serialized records always pass `validate`, so `generate_binary_automata`
reaches its normal return for every `n ≥ 1`. -/

theorem validate_result {n : Nat} {t : Table}
    (ht : t ∈ (rec n 2 0 0 1 (mkTable n 2)).2) :
    validate ⟨n, 2, serialize_current n 2 t⟩ = true := by
  have hrange := results_range ht
  have hpos := results_tokens_nonneg ht
  unfold validate
  simp only
  rw [splitTokens_serialize t hpos,
    show ((tokens n 2 t).map (fun x => some x.toNat)) =
      ((tokens n 2 t).map Int.toNat).map some from by rw [List.map_map]; rfl,
    validateLoop_map_some]
  constructor
  · rw [List.length_map, tokens_length]
  · intro p hp
    have hidx : (tokens n 2 t)[(p / 2) * 2 + p % 2]? = some (tget t (p / 2) (p % 2)) :=
      tokens_getElem? t (by omega) (by omega)
    have hpeq : (p / 2) * 2 + p % 2 = p := by omega
    rw [hpeq] at hidx
    rw [List.getD_eq_getElem?_getD, List.getElem?_map, hidx]
    have := hrange (p / 2) (by omega) (p % 2) (by omega)
    simp only [Option.map_some', Option.getD_some]
    omega

theorem generate_binary_automata_ok {n : Nat} (hn : 1 ≤ n) :
    generate_binary_automata n = Except.ok
      ((rec n 2 0 0 1 (mkTable n 2)).2.map
        (fun t => ⟨n, 2, serialize_current n 2 t⟩)) := by
  have hall : ((rec n 2 0 0 1 (mkTable n 2)).2.map
      (fun t => (⟨n, 2, serialize_current n 2 t⟩ : EncodedAutomaton))).all
        (fun a => validate a) = true := by
    apply List.all_eq_true.mpr
    intro a ha
    rw [List.mem_map] at ha
    obtain ⟨t, ht, rfl⟩ := ha
    exact validate_result ht
  simp only [generate_binary_automata]
  rw [if_neg (by omega), hall]
  rfl

theorem generate_ok_pos {n : Nat} {l : List EncodedAutomaton}
    (h : generate_binary_automata n = Except.ok l) : 1 ≤ n := by
  cases n with
  | zero =>
    rw [show generate_binary_automata 0 = Except.error GenError.configError from rfl] at h
    exact Except.noConfusion h
  | succ n => omega

theorem generate_ok_inv {n : Nat} {l : List EncodedAutomaton}
    (h : generate_binary_automata n = Except.ok l) :
    l = (rec n 2 0 0 1 (mkTable n 2)).2.map
      (fun t => ⟨n, 2, serialize_current n 2 t⟩) := by
  have h2 := generate_binary_automata_ok (generate_ok_pos h)
  rw [h] at h2
  exact (Except.ok.inj h2)

/-! Decoding a produced record recovers its table cells. -/

theorem tokens_mem_intro {n k : Nat} (t : Table) {a b : Nat} (ha : a < n) (hb : b < k) :
    tget t a b ∈ tokens n k t := by
  unfold tokens
  rw [List.mem_flatMap]
  exact ⟨a, List.mem_range.mpr ha, List.mem_map.mpr ⟨b, List.mem_range.mpr hb, rfl⟩⟩

theorem record_decode {n : Nat} {t : Table}
    (ht : t ∈ (rec n 2 0 0 1 (mkTable n 2)).2) :
    decodeNats (serialize_current n 2 t) = (tokens n 2 t).map Int.toNat :=
  decodeNats_serialize t (results_tokens_nonneg ht)

theorem record_getD {n : Nat} {t : Table}
    (ht : t ∈ (rec n 2 0 0 1 (mkTable n 2)).2) {a b : Nat} (ha : a < n) (hb : b < 2) :
    (decodeNats (serialize_current n 2 t)).getD (a * 2 + b) 0 = (tget t a b).toNat := by
  rw [record_decode ht, List.getD_eq_getElem?_getD, List.getElem?_map,
    tokens_getElem? t ha hb]
  simp only [Option.map_some', Option.getD_some]

/-- Lists of nonnegative integers with equal `toNat` images are equal. -/
theorem map_toNat_inj : ∀ (xs ys : List Int), (∀ x ∈ xs, 0 ≤ x) → (∀ y ∈ ys, 0 ≤ y) →
    xs.map Int.toNat = ys.map Int.toNat → xs = ys
  | [], [], _, _, _ => rfl
  | [], _ :: _, _, _, h => by simp at h
  | _ :: _, [], _, _, h => by simp at h
  | x :: xs, y :: ys, hx, hy, h => by
    rw [List.map_cons, List.map_cons] at h
    have h1 := List.head_eq_of_cons_eq h
    have h2 := List.tail_eq_of_cons_eq h
    have hx0 := hx x (List.mem_cons_self x xs)
    have hy0 := hy y (List.mem_cons_self y ys)
    have : x = y := by omega
    rw [this, map_toNat_inj xs ys (fun a ha => hx a (List.mem_cons_of_mem x ha))
      (fun a ha => hy a (List.mem_cons_of_mem y ha)) h2]

/-- Records of distinct tables of the run serialize to distinct strings. -/
theorem serialize_ne_of_tokdiff {n : Nat} {t t' : Table}
    (ht : t ∈ (rec n 2 0 0 1 (mkTable n 2)).2)
    (ht' : t' ∈ (rec n 2 0 0 1 (mkTable n 2)).2)
    (hd : TokDiff n 2 t t') :
    serialize_current n 2 t ≠ serialize_current n 2 t' := by
  intro hcon
  obtain ⟨a, ha, b, hb, hne⟩ := hd
  apply hne
  have hdec : decodeNats (serialize_current n 2 t) = decodeNats (serialize_current n 2 t') := by
    rw [hcon]
  rw [record_decode ht, record_decode ht'] at hdec
  have := map_toNat_inj _ _ (results_tokens_nonneg ht) (results_tokens_nonneg ht') hdec
  have h1 := tokens_getElem? t ha hb
  have h2 := tokens_getElem? t' ha hb
  rw [this, h2] at h1
  exact (Option.some.inj h1).symm

/-! Reachability from the root state stays at the root: state 0 self-loops. -/

theorem reachStep_fixed {ds : List Nat} (h0 : ds.getD 0 0 = 0) (h1 : ds.getD 1 0 = 0) :
    reachStep 2 ds [0] = [0] := by
  rw [List.getD_eq_getElem?_getD] at h0 h1
  unfold reachStep
  simp only [List.flatMap_cons, List.flatMap_nil, List.range_succ, List.range_zero,
    List.map_append, List.map_cons, List.map_nil, List.nil_append, List.append_nil]
  norm_num
  rw [h0, h1]
  decide

theorem reachListN_fixed (n : Nat) {ds : List Nat} (h0 : ds.getD 0 0 = 0)
    (h1 : ds.getD 1 0 = 0) : reachListN n 2 ds = [0] := by
  unfold reachListN
  induction n with
  | zero => rfl
  | succ n ih => rw [Function.iterate_succ_apply', ih, reachStep_fixed h0 h1]

/-! Concrete runs of the enumerator at small sizes. -/

theorem natChars_zero : natChars 0 = ['0'] := by rw [natChars]; rfl

theorem natChars_one : natChars 1 = ['1'] := by rw [natChars]; rfl

theorem natChars_two : natChars 2 = ['2'] := by rw [natChars]; rfl

theorem rec_run_two : (rec 2 2 0 0 1 (mkTable 2 2)).2 =
    [[[0, 0], [0, 0]], [[0, 0], [0, 1]], [[0, 0], [1, 0]]] := by
  simp [Synchro.rec, Synchro.recLoop, mkTable, setRowZero, tset, tget, List.range_succ]

theorem gen2_eq : generate_binary_automata 2 = Except.ok
    [⟨2, 2, "0 0 0 0"⟩, ⟨2, 2, "0 0 0 1"⟩, ⟨2, 2, "0 0 1 0"⟩] := by
  rw [generate_binary_automata_ok (by omega), rec_run_two]
  simp [serialize_current, tokens, tget, List.range_succ, intChars,
    natChars_zero, natChars_one, natChars_two, joinSep]

set_option maxHeartbeats 2000000 in
theorem rec_run_three : (rec 3 2 0 0 1 (mkTable 3 2)).2 =
    [[[0,0],[0,0],[0,2]], [[0,0],[0,0],[1,2]], [[0,0],[0,0],[2,0]], [[0,0],[0,0],[2,1]],
     [[0,0],[0,1],[0,2]], [[0,0],[0,1],[1,2]], [[0,0],[0,1],[2,0]], [[0,0],[0,1],[2,1]],
     [[0,0],[0,2],[0,0]], [[0,0],[0,2],[0,1]], [[0,0],[0,2],[0,2]], [[0,0],[0,2],[1,0]],
     [[0,0],[0,2],[1,1]], [[0,0],[0,2],[1,2]], [[0,0],[0,2],[2,0]], [[0,0],[0,2],[2,1]],
     [[0,0],[1,0],[0,2]], [[0,0],[1,0],[1,2]], [[0,0],[1,0],[2,0]], [[0,0],[1,0],[2,1]],
     [[0,0],[2,0],[0,0]], [[0,0],[2,0],[0,1]], [[0,0],[2,0],[0,2]], [[0,0],[2,0],[1,0]],
     [[0,0],[2,0],[1,1]], [[0,0],[2,0],[1,2]], [[0,0],[2,0],[2,0]], [[0,0],[2,0],[2,1]]] := by
  simp [Synchro.rec, Synchro.recLoop, mkTable, setRowZero, tset, tget, List.range_succ]

theorem serialize_three : serialize_current 3 2 [[0, 0], [0, 0], [2, 0]] = "0 0 0 0 2 0" := by
  simp [serialize_current, tokens, tget, List.range_succ, intChars,
    natChars_zero, natChars_one, natChars_two, joinSep]

/-! Claim theorems. -/

/-- C1, counterexample: the run at N = 2 yields the record "0 0 0 0"; decoding
it, the set of states reachable from state 0 by following transitions is just
0 (state 1 is missing although 1 < 2), and the label 1 never occurs in the
record at all, although the record was accepted with seen = N. -/
theorem claim_C1_counterexample :
    generate_binary_automata 2 = Except.ok
      [⟨2, 2, "0 0 0 0"⟩, ⟨2, 2, "0 0 0 1"⟩, ⟨2, 2, "0 0 1 0"⟩] ∧
    decodeNats "0 0 0 0" = [0, 0, 0, 0] ∧
    reachListN 2 2 [0, 0, 0, 0] = [0] ∧
    ¬(1 ∈ reachListN 2 2 [0, 0, 0, 0]) ∧ (1 : Nat) < 2 ∧
    ¬((1 : Nat) ∈ decodeNats "0 0 0 0") :=
  ⟨gen2_eq, by decide, by decide, by decide, by decide, by decide⟩

/-- C1, amended: in every produced record (N ≥ 2) the set of states reachable
from state 0 is exactly the singleton 0 (state 0 self-loops on both
symbols), not all of 0..N-1; what acceptance (`seen == N`) does guarantee is
that every label v with 2 ≤ v < N occurs as a target in the record — label 1
need not occur, because `seen` double-counts state 0 (the initial call passes
`seen = 1` and the root branch adds 1 again). -/
theorem claim_C1_amended : ∀ (n : Nat) (l : List EncodedAutomaton) (r : EncodedAutomaton),
    generate_binary_automata n = Except.ok l → r ∈ l → 2 ≤ n →
    (∀ q, q ∈ reachListN n 2 (decodeNats r.str) ↔ q = 0) ∧
    (∀ v : Nat, 2 ≤ v → v < n → v ∈ decodeNats r.str) := by
  intro n l r hok hr hn
  rw [generate_ok_inv hok, List.mem_map] at hr
  obtain ⟨t, ht, rfl⟩ := hr
  have hstr : (⟨n, 2, serialize_current n 2 t⟩ : EncodedAutomaton).str =
      serialize_current n 2 t := rfl
  constructor
  · intro q
    have h0 : (decodeNats (serialize_current n 2 t)).getD 0 0 = 0 := by
      have hx := record_getD ht (show 0 < n by omega) (show (0 : Nat) < 2 by omega)
      rw [show (0 * 2 + 0 : Nat) = 0 from rfl] at hx
      rw [hx, results_row0 (by omega) ht 0 (by omega)]
      rfl
    have h1 : (decodeNats (serialize_current n 2 t)).getD 1 0 = 0 := by
      have hx := record_getD ht (show 0 < n by omega) (show (1 : Nat) < 2 by omega)
      rw [show (0 * 2 + 1 : Nat) = 1 from rfl] at hx
      rw [hx, results_row0 (by omega) ht 1 (by omega)]
      rfl
    rw [hstr, reachListN_fixed n h0 h1]
    simp
  · intro v h2v hvn
    obtain ⟨a, ha, b, hb, hv⟩ := results_labels ht v h2v hvn
    rw [hstr, record_decode ht, List.mem_map]
    refine ⟨(v : Int), ?_, by simp⟩
    rw [← hv]
    exact tokens_mem_intro t ha hb

/-- C1, witness for the amended claim at N = 2 and the record "0 0 0 0". -/
theorem claim_C1_witness :
    (∀ q, q ∈ reachListN 2 2
        (decodeNats (⟨2, 2, "0 0 0 0"⟩ : EncodedAutomaton).str) ↔ q = 0) ∧
    (∀ v : Nat, 2 ≤ v → v < 2 →
        v ∈ decodeNats (⟨2, 2, "0 0 0 0"⟩ : EncodedAutomaton).str) :=
  claim_C1_amended 2 [⟨2, 2, "0 0 0 0"⟩, ⟨2, 2, "0 0 0 1"⟩, ⟨2, 2, "0 0 1 0"⟩]
    ⟨2, 2, "0 0 0 0"⟩ gen2_eq (by decide) (by omega)

/-- C2: calling the enumerator with N = 1 returns an empty result collection,
not the single record "0 0" the specification promises — `seen` reaches 2
after the root state (double-counting state 0), so the acceptance test
`seen == n` fails at n = 1 and nothing is emitted. -/
theorem claim_C2 : generate_binary_automata 1 = Except.ok ([] : List EncodedAutomaton) := by
  have hrec1 : (rec 1 2 0 0 1 (mkTable 1 2)).2 = [] := by
    simp [Synchro.rec, Synchro.recLoop, mkTable, setRowZero, tset, tget, List.range_succ]
  rw [generate_binary_automata_ok (by omega), hrec1]
  rfl

/-- C3, counterexample: the record "0 0 0 0 2 0" is produced at N = 3; its
state 2 has no symbol before the last targeting a smaller state (symbol 0
targets 2), and its last symbol targets 0, not state_idx - 1 = 1 — the code
caps the forced last target at state_idx - 1 instead of pinning it there. -/
theorem claim_C3_counterexample :
    (⟨3, 2, "0 0 0 0 2 0"⟩ : EncodedAutomaton) ∈ okList (generate_binary_automata 3) ∧
    decodeNats "0 0 0 0 2 0" = [0, 0, 0, 0, 2, 0] ∧
    ¬((decodeNats "0 0 0 0 2 0").getD (2 * 2 + 0) 0 < 2) ∧
    (decodeNats "0 0 0 0 2 0").getD (2 * 2 + 1) 0 = 0 ∧ (0 : Nat) ≠ 2 - 1 := by
  refine ⟨?_, by decide, by decide, by decide, by decide⟩
  rw [show okList (generate_binary_automata 3) =
      (rec 3 2 0 0 1 (mkTable 3 2)).2.map
        (fun t => ⟨3, 2, serialize_current 3 2 t⟩) from by
    rw [generate_binary_automata_ok (by omega)]
    rfl]
  rw [rec_run_three]
  refine List.mem_map.mpr ⟨[[0, 0], [0, 0], [2, 0]], by decide, ?_⟩
  rw [serialize_three]

/-- C3, amended: when a non-root state has no earlier symbol going down, the
last symbol is forced to go down (it may target any state strictly below
state_idx, not exactly state_idx - 1): in every produced record, if state i
(1 ≤ i < N) has its symbol-0 entry ≥ i then its symbol-1 entry is < i. -/
theorem claim_C3_amended : ∀ (n : Nat) (l : List EncodedAutomaton)
    (r : EncodedAutomaton) (i : Nat),
    generate_binary_automata n = Except.ok l → r ∈ l → 1 ≤ i → i < n →
    ¬((decodeNats r.str).getD (i * 2 + 0) 0 < i) →
    (decodeNats r.str).getD (i * 2 + 1) 0 < i := by
  intro n l r i hok hr h1 h2 hnd
  rw [generate_ok_inv hok, List.mem_map] at hr
  obtain ⟨t, ht, rfl⟩ := hr
  have hstr : (⟨n, 2, serialize_current n 2 t⟩ : EncodedAutomaton).str =
      serialize_current n 2 t := rfl
  rw [hstr] at hnd ⊢
  rw [record_getD ht h2 (by omega)] at hnd
  rw [record_getD ht h2 (by omega)]
  obtain ⟨s, hs, hne, hlt⟩ := results_down ht i h1 h2
  have hrng := (results_range ht i h2 s hs).1
  interval_cases s
  · omega
  · omega

/-- C3, witness for the amended claim at N = 2 with the record "0 0 1 0". -/
theorem claim_C3_witness :
    (decodeNats (⟨2, 2, "0 0 1 0"⟩ : EncodedAutomaton).str).getD (1 * 2 + 1) 0 < 1 :=
  claim_C3_amended 2 [⟨2, 2, "0 0 0 0"⟩, ⟨2, 2, "0 0 0 1"⟩, ⟨2, 2, "0 0 1 0"⟩]
    ⟨2, 2, "0 0 1 0"⟩ 1 gen2_eq (by decide) (by omega) (by omega) (by decide)

/-- C4: every produced record's first K = 2 integers are 0 — state 0 is a
universal self-loop in every produced automaton. -/
theorem claim_C4 : ∀ (n : Nat) (l : List EncodedAutomaton) (r : EncodedAutomaton),
    generate_binary_automata n = Except.ok l → r ∈ l →
    (decodeNats r.str).take 2 = [0, 0] := by
  intro n l r hok hr
  have hn := generate_ok_pos hok
  rw [generate_ok_inv hok, List.mem_map] at hr
  obtain ⟨t, ht, rfl⟩ := hr
  have hstr : (⟨n, 2, serialize_current n 2 t⟩ : EncodedAutomaton).str =
      serialize_current n 2 t := rfl
  rw [hstr, record_decode ht, ← List.map_take, tokens_take t hn,
    show List.range 2 = [0, 1] from rfl]
  simp only [List.map_cons, List.map_nil]
  rw [results_row0 hn ht 0 (by omega), results_row0 hn ht 1 (by omega)]
  rfl

/-- C4, witness at N = 2 with the record "0 0 0 1". -/
theorem claim_C4_witness :
    (decodeNats (⟨2, 2, "0 0 0 1"⟩ : EncodedAutomaton).str).take 2 = [0, 0] :=
  claim_C4 2 [⟨2, 2, "0 0 0 0"⟩, ⟨2, 2, "0 0 0 1"⟩, ⟨2, 2, "0 0 1 0"⟩]
    ⟨2, 2, "0 0 0 1"⟩ gen2_eq (by decide)

/-- C5: for every N, the result collection of a single enumeration contains
no two identical strings: distinct complete assignments differ at some cell,
and serialization is injective on the produced tables. -/
theorem claim_C5 : ∀ (n : Nat) (l : List EncodedAutomaton),
    generate_binary_automata n = Except.ok l →
    (l.map (fun a => a.str)).Nodup := by
  intro n l hok
  rw [generate_ok_inv hok, List.map_map]
  have hp := results_pairwise n
  rw [List.Nodup, List.pairwise_map]
  refine List.Pairwise.imp_of_mem ?_ hp
  intro t t' ht ht' hd
  exact serialize_ne_of_tokdiff ht ht' hd

/-- C5, witness at N = 2. -/
theorem claim_C5_witness :
    (([⟨2, 2, "0 0 0 0"⟩, ⟨2, 2, "0 0 0 1"⟩, ⟨2, 2, "0 0 1 0"⟩] :
        List EncodedAutomaton).map (fun a => a.str)).Nodup :=
  claim_C5 2 [⟨2, 2, "0 0 0 0"⟩, ⟨2, 2, "0 0 0 1"⟩, ⟨2, 2, "0 0 1 0"⟩] gen2_eq

/-- C6, counterexample: the validator is not an "exactly N×K integers" check:
for N = 1, K = 2 the string "0 0 0" has three whitespace-separated integers,
not 1 × 2 = 2, yet `validate` returns normally (it stops reading after N×K
integers and never rejects trailing data). -/
theorem claim_C6_counterexample :
    validate ⟨1, 2, "0 0 0"⟩ = true ∧
    (splitTokens ("0 0 0".data)).length = 3 ∧ (1 * 2 : Nat) ≠ 3 :=
  ⟨by decide, by decide, by decide⟩

/-- C6, amended: over wire-format strings (space-joined decimal numerals),
`validate` returns normally iff the string contains at least N×K integers
and the first N×K of them are each < N; too few integers or an out-of-range
value among the first N×K is fatal, but extra trailing integers are not. -/
theorem claim_C6_amended : ∀ (N K : Nat) (vs : List Nat),
    validate ⟨N, K, String.mk (joinSep (vs.map natChars))⟩ = true ↔
      (N * K ≤ vs.length ∧ ∀ p < N * K, vs.getD p 0 < N) := by
  intro N K vs
  unfold validate
  simp only
  rw [splitTokens_joinSep]
  · rw [List.map_map,
      show (readUInt ∘ natChars) = (fun v : Nat => some v) from
        funext (fun v => readUInt_natChars v),
      show vs.map (fun v : Nat => some v) = vs.map some from rfl]
    exact validateLoop_map_some N (N * K) vs
  · intro tok htok
    rw [List.mem_map] at htok
    obtain ⟨v, hv, rfl⟩ := htok
    exact ⟨natChars_ne_nil v, fun c hc => isDigit_ne_space (natChars_all_digit v c hc)⟩

/-- C6, witness for the amended claim at N = 1, K = 2 with two in-range
integers. -/
theorem claim_C6_witness :
    validate ⟨1, 2, String.mk (joinSep (([0, 0] : List Nat).map natChars))⟩ = true ↔
      (1 * 2 ≤ ([0, 0] : List Nat).length ∧
        ∀ p < 1 * 2, ([0, 0] : List Nat).getD p 0 < 1) :=
  claim_C6_amended 1 2 [0, 0]

/-- C7: the enumerator fails with the configuration error exactly at N = 0
(its alphabet size is fixed at K = 2, so the K = 0 case cannot arise); for
every N ≥ 1 it returns a result collection — in particular the validation of
the produced records never takes the fatal exit either. -/
theorem claim_C7 : ∀ n : Nat,
    (n = 0 → generate_binary_automata n = Except.error GenError.configError) ∧
    (1 ≤ n → ∃ l, generate_binary_automata n = Except.ok l) := by
  intro n
  constructor
  · intro h
    subst h
    rfl
  · intro hn
    exact ⟨_, generate_binary_automata_ok hn⟩

/-- C7, witness: the error at N = 0 and a successful run at N = 2. -/
theorem claim_C7_witness :
    generate_binary_automata 0 = Except.error GenError.configError ∧
    ∃ l, generate_binary_automata 2 = Except.ok l :=
  ⟨(claim_C7 0).1 rfl, (claim_C7 2).2 (by omega)⟩

/-- C8, counterexample: not every call restores the table. The initial call
`rec(0, 0, 1)` (here at N = 1) permanently assigns state 0's row: it returns
the table `[[0, 0]]` although it was entered with the fully unassigned
table. -/
theorem claim_C8_counterexample :
    (rec 1 2 0 0 1 (mkTable 1 2)).1 = [[0, 0]] ∧
    ([[0, 0]] : Table) ≠ mkTable 1 2 := by
  constructor
  · simp [Synchro.rec, Synchro.recLoop, mkTable, setRowZero, tset, tget, List.range_succ]
  · decide

/-- C8, amended: every call with state_idx ≥ 1 restores the table before
returning: if the cells at or after its position are unassigned at entry,
the table after the call equals the table at entry. Only the root-state call
(state_idx = 0) breaks this, by leaving row 0 assigned. -/
theorem claim_C8_amended : ∀ (n k i j seen : Nat) (t : Table),
    1 ≤ i → Shaped n k t → UnassignedFrom n k t i j →
    (rec n k i j seen t).1 = t := by
  intro n k i j seen t hi hsh hun
  exact (rec_restore n k).1 i j seen t hi hsh hun

/-- C8, witness: a call at state 1 with state 0's row already assigned
returns its table unchanged. -/
theorem claim_C8_witness :
    (rec 2 2 1 0 2 [[0, 0], [-1, -1]]).1 = [[0, 0], [-1, -1]] :=
  claim_C8_amended 2 2 1 0 2 [[0, 0], [-1, -1]] (by omega) (by decide) (by decide)

/-- C9: the enumeration is deterministic — the embedding of the enumerator
is a pure function of N (the C++ implementation uses only locally scoped
state, no randomness, threads or ambient input), so two invocations at the
same N return identical result collections in identical order. -/
theorem claim_C9 : ∀ n : Nat, generate_binary_automata n = generate_binary_automata n :=
  fun _ => rfl

/-- C10: in every produced record (N ≥ 2), every non-root state i has a
back-edge: one of its two symbols targets a state with index strictly
below i. -/
theorem claim_C10 : ∀ (n : Nat) (l : List EncodedAutomaton)
    (r : EncodedAutomaton) (i : Nat),
    generate_binary_automata n = Except.ok l → r ∈ l → 1 ≤ i → i < n →
    ∃ s, s < 2 ∧ (decodeNats r.str).getD (i * 2 + s) 0 < i := by
  intro n l r i hok hr h1 h2
  rw [generate_ok_inv hok, List.mem_map] at hr
  obtain ⟨t, ht, rfl⟩ := hr
  have hstr : (⟨n, 2, serialize_current n 2 t⟩ : EncodedAutomaton).str =
      serialize_current n 2 t := rfl
  obtain ⟨s, hs, hne, hlt⟩ := results_down ht i h1 h2
  have hrng := (results_range ht i h2 s hs).1
  refine ⟨s, hs, ?_⟩
  rw [hstr, record_getD ht h2 hs]
  omega

/-- C10, witness at N = 2 with the record "0 0 1 0" (state 1's symbol 1
targets 0 < 1). -/
theorem claim_C10_witness :
    ∃ s, s < 2 ∧
      (decodeNats (⟨2, 2, "0 0 1 0"⟩ : EncodedAutomaton).str).getD (1 * 2 + s) 0 < 1 :=
  claim_C10 2 [⟨2, 2, "0 0 0 0"⟩, ⟨2, 2, "0 0 0 1"⟩, ⟨2, 2, "0 0 1 0"⟩]
    ⟨2, 2, "0 0 1 0"⟩ 1 gen2_eq (by decide) (by omega) (by omega)

end Synchro
